import Mathlib

/-!
Verification of the layout/offset model and field access contract of the
`binary-layout` crate (src/macro_define_layout.rs).

The macro source provides: the offset accumulation of `define_layout!`
(`_impl_fields`: accumulator starts at 0, each field's offset is the running
total, then the field's `SIZE` is added), the `View` struct with `new` and
`into_storage`, and the per-field accessors that construct `FieldView`s over
the same storage. The `Field`/`FieldView` accessor bodies and the integer
codecs live in other files of the crate that are not part of the given
sources; those are modelled from the spec (each such definition says so in
its doc comment).

Storage buffers are modelled as `List Nat` with each byte reduced mod 256 by
the codec; fallible accesses (Rust panics / compile-time rejections) return
`Option`.
-/

namespace BinaryLayout

/-- Byte order of a layout: `LittleEndian` or `BigEndian`. -/
inductive Endianness
  | little
  | big
deriving DecidableEq, Repr

/-- The supported field types: fixed-width integers (width in bytes, signed
or unsigned), fixed byte arrays `[u8; n]`, and the open-ended trailing byte
array `[u8]`. -/
inductive FieldType
  | integer (width : Nat) (signed : Bool)
  | fixedBytes (n : Nat)
  | openBytes
deriving DecidableEq, Repr

/-- Modelled from the spec: the `FieldSize::SIZE` constant of the crate (not
in the given sources). Integers have their byte width, `[u8; n]` has size
`n`, and the open byte array has no fixed size. -/
def fieldSize : FieldType → Option Nat
  | .integer w _ => some w
  | .fixedBytes n => some n
  | .openBytes => none

/-- The fixed size of a field, defaulting to 0 for the open trailing field
(whose `SIZE` does not exist in the crate; the default is never consulted
for layouts accepted by `define_layout!`, where the open field is last). -/
def fixedSizeOf (t : FieldType) : Nat := (fieldSize t).getD 0

/-- Offset assignment of `define_layout!(_impl_fields ...)`: the accumulator
starts at 0; each field receives the current accumulator as its `OFFSET`, and
the accumulator then grows by the field's `SIZE`. -/
def computeOffsets (acc : Nat) : List FieldType → List Nat
  | [] => []
  | t :: ts => acc :: computeOffsets (acc + fixedSizeOf t) ts

/-- The list of field offsets of a layout, in declaration order. -/
def offsets (fs : List FieldType) : List Nat := computeOffsets 0 fs

/-- The field types of the layout `{first: i8, second: i64, third: [u8; 5],
fourth: u16, fifth: [u8]}` from the `withslice` test module. -/
def withsliceFields : List FieldType :=
  [.integer 1 true, .integer 8 true, .fixedBytes 5, .integer 2 false, .openBytes]

/-- Whether a field type is not the open trailing byte array. -/
def notOpen : FieldType → Bool
  | .openBytes => false
  | _ => true

/-- Whether every field except possibly the last one has a fixed size (the
open byte array appears at most in last position). -/
def nonLastNotOpen : List FieldType → Bool
  | [] => true
  | [_] => true
  | t :: t2 :: ts => notOpen t && nonLastNotOpen (t2 :: ts)

/-- A layout: an endianness and an ordered list of named, typed fields.
Field names are drawn from an arbitrary type with decidable equality (they
are Rust identifiers in the source). -/
structure Layout (α : Type) where
  endianness : Endianness
  fields : List (α × FieldType)

/-- Modelled from the spec: layout construction by `define_layout!`. The
macro rejects, at definition time and before any storage exists, a repeated
field name (two generated items would collide) and an open byte field in
non-last position (it has no `SIZE` to accumulate an offset with); every
other field list is accepted. Rejection is modelled as `none`. -/
def mkLayout {α : Type} [DecidableEq α] (e : Endianness) (fs : List (α × FieldType)) :
    Option (Layout α) :=
  if (fs.map Prod.fst).Nodup ∧ nonLastNotOpen (fs.map Prod.snd) = true then
    some ⟨e, fs⟩
  else none

/-- Modelled from the spec: little-endian byte expansion of a natural number
over `w` bytes (the byte sequence of `to_le_bytes`). -/
def leBytes : Nat → Nat → List Nat
  | 0, _ => []
  | w + 1, v => v % 256 :: leBytes w (v / 256)

/-- Modelled from the spec: value of a little-endian byte sequence
(`from_le_bytes`). -/
def fromLeBytes : List Nat → Nat
  | [] => 0
  | b :: bs => b + 256 * fromLeBytes bs

/-- Modelled from the spec: `encode(value, endianness) → width bytes` for an
integer field. Signed values use two's complement, so both signednesses
encode the value reduced mod `2^(8·width)`; byte order decides which end
holds the most significant byte. -/
def encodeInt (width : Nat) (e : Endianness) (v : Int) : List Nat :=
  let u := (v % (2 ^ (8 * width))).toNat
  match e with
  | .little => leBytes width u
  | .big => (leBytes width u).reverse

/-- Modelled from the spec: `decode(bytes[width], endianness) → value` for an
integer field; a signed value with the sign bit set is shifted down by
`2^(8·width)` (two's complement). -/
def decodeInt (width : Nat) (signed : Bool) (e : Endianness) (bs : List Nat) : Int :=
  let u := fromLeBytes (match e with | .little => bs | .big => bs.reverse)
  if signed && decide (2 ^ (8 * width - 1) ≤ u) then (u : Int) - 2 ^ (8 * width) else (u : Int)

/-- The values representable by an integer field of the given width and
signedness (the value range of the corresponding Rust integer type). -/
def representable (width : Nat) (signed : Bool) (v : Int) : Prop :=
  match signed with
  | true => -(2 ^ (8 * width - 1)) ≤ v ∧ v < 2 ^ (8 * width - 1)
  | false => 0 ≤ v ∧ v < 2 ^ (8 * width)

instance instDecidableRepresentable (width : Nat) (signed : Bool) (v : Int) :
    Decidable (representable width signed v) :=
  match signed with
  | true => instDecidableAnd
  | false => instDecidableAnd

namespace Field

/-- Modelled from the spec: the stateless `Field::read` for an integer field
at offset `off` with byte width `w`: decode the bytes
`buffer[off .. off+w]` with the layout's endianness. Requires
`buffer.len() >= off + w`; a shorter buffer is a bounds error (`none`). -/
def read (off w : Nat) (signed : Bool) (e : Endianness) (s : List Nat) : Option Int :=
  if off + w ≤ s.length then some (decodeInt w signed e ((s.drop off).take w)) else none

/-- Modelled from the spec: the stateless `Field::write` for an integer
field: encode the value and store it into `buffer[off .. off+w]`. Requires
`buffer.len() >= off + w`; a shorter buffer is a bounds error (`none`). -/
def write (off w : Nat) (e : Endianness) (s : List Nat) (v : Int) : Option (List Nat) :=
  if off + w ≤ s.length then some (s.take off ++ encodeInt w e v ++ s.drop (off + w)) else none

/-- Modelled from the spec: `Field::data` for a fixed byte array field of
size `n`: the raw slice `buffer[off .. off+n]`. Requires
`buffer.len() >= off + n`. -/
def data (off n : Nat) (s : List Nat) : Option (List Nat) :=
  if off + n ≤ s.length then some ((s.drop off).take n) else none

/-- Modelled from the spec: writing through `Field::data_mut` +
`copy_from_slice` on a fixed byte array field of size `n`: the source bytes
must have exactly length `n` and the buffer must reach `off + n`. -/
def writeData (off n : Nat) (s bs : List Nat) : Option (List Nat) :=
  if bs.length = n ∧ off + n ≤ s.length then some (s.take off ++ bs ++ s.drop (off + n))
  else none

/-- Modelled from the spec: `Field::data` for the open trailing byte field:
the slice `buffer[off ..]`, of length `buffer.len() - off`. Requires
`buffer.len() >= off`; a shorter buffer is a bounds error (`none`). -/
def openData (off : Nat) (s : List Nat) : Option (List Nat) :=
  if off ≤ s.length then some (s.drop off) else none

/-- Modelled from the spec: writing through `Field::data_mut` +
`copy_from_slice` on the open trailing byte field: the source bytes must
match the remaining buffer length `buffer.len() - off`. -/
def writeOpenData (off : Nat) (s bs : List Nat) : Option (List Nat) :=
  if off ≤ s.length ∧ bs.length = s.length - off then some (s.take off ++ bs) else none

end Field

/-- The `View` struct generated by `define_layout!`: it holds the storage
and nothing else. -/
structure View (S : Type) where
  storage : S
deriving DecidableEq

/-- `View::new(storage)` from the macro source. -/
def View.new {S : Type} (storage : S) : View S := ⟨storage⟩

/-- `View::into_storage(self)` from the macro source: returns `self.storage`. -/
def View.into_storage {S : Type} (v : View S) : S := v.storage

/-- A `FieldView` as constructed by the generated accessors: it holds the
storage handle it was given. -/
structure FieldView (S : Type) where
  storage : S
deriving DecidableEq

/-- `FieldView::new(storage)` as called by the generated accessors. -/
def FieldView.new {S : Type} (storage : S) : FieldView S := ⟨storage⟩

/-- The generated `into_<field>` accessor (`_impl_view_into`): consumes the
view and hands its storage to `FieldView::new`. -/
def View.into_field {S : Type} (v : View S) : FieldView S := FieldView.new v.storage

/-- Modelled from the spec: `FieldView::extract` for an open trailing byte
field at offset `off`: the field view owns the storage handle, and extract
returns the field's byte range `storage[off ..]`, whose validity is
independent of the already-destroyed view. -/
def FieldView.extract (off : Nat) (fv : FieldView (List Nat)) : Option (List Nat) :=
  Field.openData off fv.storage

/-- One mutation performed through a field view of a mutable view: an
integer-field `write`, a fixed byte field `data_mut` copy, or an open byte
field `data_mut` copy. -/
inductive FieldOp
  | wInt (off w : Nat) (e : Endianness) (v : Int)
  | wData (off n : Nat) (bs : List Nat)
  | wOpen (off : Nat) (bs : List Nat)

/-- Effect of one field mutation on the underlying storage bytes. -/
def applyOp : FieldOp → List Nat → Option (List Nat)
  | .wInt off w e v, s => Field.write off w e s v
  | .wData off n bs, s => Field.writeData off n s bs
  | .wOpen off bs, s => Field.writeOpenData off s bs

/-- Effect of a sequence of field mutations on the underlying storage. -/
def applyOps : List FieldOp → List Nat → Option (List Nat)
  | [], s => some s
  | op :: ops, s => (applyOp op s).bind (applyOps ops)

/-- Running a sequence of field mutations through a view: each mutation goes
through a field view over the view's storage and updates it in place. -/
def View.runOps (v : View (List Nat)) (ops : List FieldOp) : Option (View (List Nat)) :=
  (applyOps ops v.storage).map View.new

theorem length_leBytes (w v : Nat) : (leBytes w v).length = w := by
  induction w generalizing v with
  | zero => rfl
  | succ n ih => simp [leBytes, ih]

theorem fromLeBytes_leBytes (w v : Nat) : fromLeBytes (leBytes w v) = v % 2 ^ (8 * w) := by
  induction w generalizing v with
  | zero => simp [leBytes, fromLeBytes]; omega
  | succ n ih =>
    have hpow : 2 ^ (8 * (n + 1)) = 256 * 2 ^ (8 * n) := by
      rw [Nat.mul_succ, pow_add]
      ring
    rw [leBytes, fromLeBytes, ih, hpow, Nat.mod_mul]

theorem length_encodeInt (w : Nat) (e : Endianness) (v : Int) :
    (encodeInt w e v).length = w := by
  cases e <;> simp [encodeInt, length_leBytes]

/-- Round-trip of the integer codec for any positive width. -/
theorem decodeInt_encodeInt (width : Nat) (signed : Bool) (e : Endianness) (v : Int)
    (hw : 0 < width) (hv : representable width signed v) :
    decodeInt width signed e (encodeInt width e v) = v := by
  have hple : decodeInt width signed e (encodeInt width e v) =
      decodeInt width signed Endianness.little (encodeInt width Endianness.little v) := by
    cases e <;> simp [decodeInt, encodeInt, List.reverse_reverse]
  rw [hple]
  have hM : (0 : Int) < 2 ^ (8 * width) := by positivity
  have hMne : (2 : Int) ^ (8 * width) ≠ 0 := ne_of_gt hM
  set u : Nat := (v % (2 ^ (8 * width))).toNat with hu
  have hmod_nonneg : 0 ≤ v % 2 ^ (8 * width) := Int.emod_nonneg v hMne
  have hmod_lt : v % 2 ^ (8 * width) < 2 ^ (8 * width) := Int.emod_lt_of_pos v hM
  have hucast : (u : Int) = v % 2 ^ (8 * width) := Int.toNat_of_nonneg hmod_nonneg
  have huval : fromLeBytes (leBytes width u) = u := by
    rw [fromLeBytes_leBytes]
    apply Nat.mod_eq_of_lt
    have : (u : Int) < 2 ^ (8 * width) := by rw [hucast]; exact hmod_lt
    exact_mod_cast this
  have hsplit : (2 : Int) ^ (8 * width) = 2 * 2 ^ (8 * width - 1) := by
    rw [← pow_succ']
    congr 1
    omega
  simp only [decodeInt, encodeInt, huval]
  cases signed with
  | false =>
    simp only [Bool.false_and, if_neg Bool.false_ne_true]
    rw [hucast]
    rcases hv with ⟨h0, h1⟩
    exact Int.emod_eq_of_lt h0 h1
  | true =>
    rcases hv with ⟨h0, h1⟩
    rcases le_or_lt 0 v with hpos | hneg
    · have hvlt : v < 2 ^ (8 * width) := by
        calc v < 2 ^ (8 * width - 1) := h1
        _ ≤ 2 ^ (8 * width) := by omega
      have hmodv : v % 2 ^ (8 * width) = v := Int.emod_eq_of_lt hpos hvlt
      have hult : ¬ (2 ^ (8 * width - 1) ≤ u) := by
        intro hc
        have : (2 : Int) ^ (8 * width - 1) ≤ (u : Int) := by exact_mod_cast hc
        rw [hucast, hmodv] at this
        omega
      simp only [Bool.true_and, decide_eq_true_eq, if_neg hult]
      rw [hucast, hmodv]
    · have hmodv : v % 2 ^ (8 * width) = v + 2 ^ (8 * width) := by
        have h1 : (v + 2 ^ (8 * width)) % 2 ^ (8 * width) = v % 2 ^ (8 * width) := by
          simp
        have h2 : (v + 2 ^ (8 * width)) % 2 ^ (8 * width) = v + 2 ^ (8 * width) := by
          apply Int.emod_eq_of_lt
          · omega
          · omega
        omega
      have huge : 2 ^ (8 * width - 1) ≤ u := by
        have : (2 : Int) ^ (8 * width - 1) ≤ (u : Int) := by
          rw [hucast, hmodv]
          omega
        exact_mod_cast this
      simp only [Bool.true_and, decide_eq_true_eq, if_pos huge]
      rw [hucast, hmodv]
      ring

theorem length_spliced (s mid : List Nat) (off w : Nat)
    (hm : mid.length = w) (hb : off + w ≤ s.length) :
    (s.take off ++ mid ++ s.drop (off + w)).length = s.length := by
  simp [hm]
  omega

theorem slice_spliced (s mid : List Nat) (off w : Nat)
    (hm : mid.length = w) (hb : off + w ≤ s.length) :
    ((s.take off ++ mid ++ s.drop (off + w)).drop off).take w = mid := by
  have h1 : (s.take off).length = off := by simp; omega
  rw [List.append_assoc, List.drop_left' h1, List.take_left' hm]

theorem getElem?_spliced (s mid : List Nat) (off w i : Nat)
    (hm : mid.length = w) (hb : off + w ≤ s.length) (hi : i < off ∨ off + w ≤ i) :
    (s.take off ++ mid ++ s.drop (off + w))[i]? = s[i]? := by
  have h1 : (s.take off).length = off := by simp; omega
  rw [List.append_assoc]
  rcases hi with hi | hi
  · rw [List.getElem?_append_left (by rw [h1]; omega)]
    exact List.getElem?_take_of_lt hi
  · rw [List.getElem?_append_right (by rw [h1]; omega), h1]
    rw [List.getElem?_append_right (by rw [hm]; omega), hm]
    rw [List.getElem?_drop]
    congr 1
    omega

theorem slice_eq_of_getElem? (a b : List Nat) (off w : Nat)
    (h : ∀ i, off ≤ i → i < off + w → a[i]? = b[i]?) :
    (a.drop off).take w = (b.drop off).take w := by
  apply List.ext_getElem?
  intro j
  by_cases hj : j < w
  · rw [List.getElem?_take_of_lt hj, List.getElem?_take_of_lt hj,
      List.getElem?_drop, List.getElem?_drop]
    exact h (off + j) (by omega) (by omega)
  · have ha : ((a.drop off).take w).length ≤ j := by simp; omega
    have hb : ((b.drop off).take w).length ≤ j := by simp; omega
    rw [List.getElem?_eq_none ha, List.getElem?_eq_none hb]

namespace Field

theorem write_eq {off w : Nat} {e : Endianness} {s : List Nat} {v : Int} {s' : List Nat}
    (h : write off w e s v = some s') :
    off + w ≤ s.length ∧ s' = s.take off ++ encodeInt w e v ++ s.drop (off + w) := by
  unfold write at h
  split at h
  next hc => cases h; exact ⟨hc, rfl⟩
  next => cases h

theorem writeData_eq {off n : Nat} {s bs s' : List Nat}
    (h : writeData off n s bs = some s') :
    bs.length = n ∧ off + n ≤ s.length ∧ s' = s.take off ++ bs ++ s.drop (off + n) := by
  unfold writeData at h
  split at h
  next hc => cases h; exact ⟨hc.1, hc.2, rfl⟩
  next => cases h

theorem writeOpenData_eq {off : Nat} {s bs s' : List Nat}
    (h : writeOpenData off s bs = some s') :
    off ≤ s.length ∧ bs.length = s.length - off ∧ s' = s.take off ++ bs := by
  unfold writeOpenData at h
  split at h
  next hc => cases h; exact ⟨hc.1, hc.2, rfl⟩
  next => cases h

theorem write_frame {off w : Nat} {e : Endianness} {s : List Nat} {v : Int} {s' : List Nat}
    (h : write off w e s v = some s') :
    s'.length = s.length ∧ ∀ i, i < off ∨ off + w ≤ i → s'[i]? = s[i]? := by
  obtain ⟨hb, rfl⟩ := write_eq h
  exact ⟨length_spliced s _ off w (length_encodeInt w e v) hb,
    fun i hi => getElem?_spliced s _ off w i (length_encodeInt w e v) hb hi⟩

theorem writeData_frame {off n : Nat} {s bs s' : List Nat}
    (h : writeData off n s bs = some s') :
    s'.length = s.length ∧ ∀ i, i < off ∨ off + n ≤ i → s'[i]? = s[i]? := by
  obtain ⟨hl, hb, rfl⟩ := writeData_eq h
  exact ⟨length_spliced s _ off n hl hb,
    fun i hi => getElem?_spliced s _ off n i hl hb hi⟩

theorem writeOpenData_frame {off : Nat} {s bs s' : List Nat}
    (h : writeOpenData off s bs = some s') :
    s'.length = s.length ∧ ∀ i, i < off → s'[i]? = s[i]? := by
  obtain ⟨hb, hl, rfl⟩ := writeOpenData_eq h
  have h1 : (s.take off).length = off := by simp; omega
  refine ⟨by simp [hl]; omega, ?_⟩
  intro i hi
  rw [List.getElem?_append_left (by rw [h1]; omega)]
  exact List.getElem?_take_of_lt hi

theorem read_eq_decode {off w : Nat} {signed : Bool} {e : Endianness} {s : List Nat}
    (hb : off + w ≤ s.length) :
    read off w signed e s = some (decodeInt w signed e ((s.drop off).take w)) := by
  unfold read
  rw [if_pos hb]

theorem read_congr (off w : Nat) (signed : Bool) (e : Endianness) (a b : List Nat)
    (hlen : a.length = b.length)
    (h : ∀ i, off ≤ i → i < off + w → a[i]? = b[i]?) :
    read off w signed e a = read off w signed e b := by
  unfold read
  rw [hlen, slice_eq_of_getElem? a b off w h]

theorem read_write {off w : Nat} {signed : Bool} {e : Endianness} {s : List Nat} {v : Int}
    {s' : List Nat} (hw : 0 < w) (hv : representable w signed v)
    (h : write off w e s v = some s') :
    read off w signed e s' = some v := by
  obtain ⟨hb, rfl⟩ := write_eq h
  have hlen := length_spliced s (encodeInt w e v) off w (length_encodeInt w e v) hb
  unfold read
  rw [if_pos (by rw [hlen]; exact hb),
    slice_spliced s (encodeInt w e v) off w (length_encodeInt w e v) hb,
    decodeInt_encodeInt w signed e v hw hv]

theorem write_isSome (off w : Nat) (e : Endianness) (s : List Nat) (v : Int)
    (hb : off + w ≤ s.length) : ∃ s', write off w e s v = some s' := by
  unfold write
  rw [if_pos hb]
  exact ⟨_, rfl⟩

theorem write_zero_prefix {w : Nat} {e : Endianness} {s : List Nat} {v : Int} {s' : List Nat}
    (h : write 0 w e s v = some s') : s'.take w = encodeInt w e v := by
  obtain ⟨hb, rfl⟩ := write_eq h
  simp only [List.take_zero, List.nil_append]
  exact List.take_left' (length_encodeInt w e v)

end Field

theorem computeOffsets_getElem? (fs : List FieldType) (acc i : Nat) (hi : i < fs.length) :
    (computeOffsets acc fs)[i]? = some (acc + ((fs.take i).map fixedSizeOf).sum) := by
  induction fs generalizing acc i with
  | nil => simp at hi
  | cons t ts ih =>
    cases i with
    | zero => simp [computeOffsets]
    | succ j =>
      have hj : j < ts.length := by simpa using hi
      simp only [computeOffsets, List.getElem?_cons_succ, List.take_succ_cons, List.map_cons,
        List.sum_cons]
      rw [ih (acc + fixedSizeOf t) j hj]
      congr 1
      omega

theorem notOpen_iff (t : FieldType) : notOpen t = true ↔ t ≠ FieldType.openBytes := by
  cases t <;> simp [notOpen]

theorem nonLastNotOpen_iff (ts : List FieldType) :
    nonLastNotOpen ts = true ↔
      ∀ i : Nat, i + 1 < ts.length → ts[i]? ≠ some FieldType.openBytes := by
  induction ts with
  | nil => simp [nonLastNotOpen]
  | cons t ts ih =>
    cases ts with
    | nil => simp [nonLastNotOpen]
    | cons t2 ts2 =>
      rw [show nonLastNotOpen (t :: t2 :: ts2) = (notOpen t && nonLastNotOpen (t2 :: ts2))
        from rfl]
      rw [Bool.and_eq_true, ih, notOpen_iff]
      constructor
      · rintro ⟨h1, h2⟩ i hi
        cases i with
        | zero => simpa using h1
        | succ j =>
          have := h2 j (by simpa using hi)
          simpa using this
      · intro h
        constructor
        · have := h 0 (by simp)
          simpa using this
        · intro j hj
          have := h (j + 1) (by simp at hj ⊢; omega)
          simpa using this

/-- Claim C1: for every layout accepted by `define_layout!` (open byte field
only in last position), each field's offset equals the sum of the sizes of
the fields declared before it — so the first field's offset is 0 — and the
`withslice` layout `{first: i8, second: i64, third: [u8; 5], fourth: u16,
fifth: [u8]}` has offsets 0, 1, 9, 14, 16. -/
theorem offset_is_prefix_sum :
    (∀ (fs : List FieldType) (i : Nat), i < fs.length → nonLastNotOpen fs = true →
      (offsets fs)[i]? = some (((fs.take i).map fixedSizeOf).sum)) ∧
    offsets withsliceFields = [0, 1, 9, 14, 16] := by
  constructor
  · intro fs i hi _
    rw [offsets, computeOffsets_getElem? fs 0 i hi]
    simp
  · rfl

/-- Witness for C1 at the `withslice` layout, field index 3 (`fourth`, at
offset 1 + 8 + 5 = 14). -/
theorem offset_is_prefix_sum_witness :
    (offsets withsliceFields)[3]? =
      some (((withsliceFields.take 3).map fixedSizeOf).sum) :=
  offset_is_prefix_sum.1 withsliceFields 3 (by decide) (by decide)

/-- Claim C2: for each supported integer width (1, 2, 4, 8 or 16 bytes),
either signedness and either byte order, decoding the bytes produced by
encoding a representable value yields the value back (round-trip). -/
theorem integer_roundtrip (width : Nat) (signed : Bool) (e : Endianness) (v : Int)
    (hw : width = 1 ∨ width = 2 ∨ width = 4 ∨ width = 8 ∨ width = 16)
    (hv : representable width signed v) :
    decodeInt width signed e (encodeInt width e v) = v :=
  decodeInt_encodeInt width signed e v (by omega) hv

/-- Witness for C2: an 8-byte signed big-endian round-trip of a negative
value. -/
theorem integer_roundtrip_witness :
    decodeInt 8 true Endianness.big (encodeInt 8 Endianness.big (-100000000000)) =
      -100000000000 :=
  integer_roundtrip 8 true Endianness.big (-100000000000) (by omega) (by decide)

/-- Claim C3: writing an integer field and reading the same field back over
the same storage returns the written value; concretely, over any storage of
length at least 11, the little-endian layout with fields at offset 0 (i8),
offset 1 (i64) and offset 9 (u16) gives back 60, -100000000000 and 1000
after writing them, and little-endian decoding of the raw bytes at those
offsets reproduces them. -/
theorem write_then_read :
    (∀ (off w : Nat) (signed : Bool) (e : Endianness) (v : Int) (t t' : List Nat),
      0 < w → representable w signed v → Field.write off w e t v = some t' →
      Field.read off w signed e t' = some v) ∧
    (∀ s : List Nat, 11 ≤ s.length →
      ∃ s1 s2 s3 : List Nat,
        Field.write 0 1 Endianness.little s 60 = some s1 ∧
        Field.write 1 8 Endianness.little s1 (-100000000000) = some s2 ∧
        Field.write 9 2 Endianness.little s2 1000 = some s3 ∧
        Field.read 0 1 true Endianness.little s3 = some 60 ∧
        Field.read 1 8 true Endianness.little s3 = some (-100000000000) ∧
        Field.read 9 2 false Endianness.little s3 = some 1000 ∧
        decodeInt 1 true Endianness.little ((s3.drop 0).take 1) = 60 ∧
        decodeInt 8 true Endianness.little ((s3.drop 1).take 8) = -100000000000 ∧
        decodeInt 2 false Endianness.little ((s3.drop 9).take 2) = 1000) := by
  constructor
  · intro off w signed e v t t' hw hv h
    exact Field.read_write hw hv h
  · intro s hs
    obtain ⟨s1, h1⟩ := Field.write_isSome 0 1 Endianness.little s 60 (by omega)
    have l1 := (Field.write_frame h1).1
    obtain ⟨s2, h2⟩ := Field.write_isSome 1 8 Endianness.little s1 (-100000000000) (by omega)
    have f2 := Field.write_frame h2
    obtain ⟨s3, h3⟩ := Field.write_isSome 9 2 Endianness.little s2 1000 (by omega)
    have f3 := Field.write_frame h3
    have r3 : Field.read 9 2 false Endianness.little s3 = some 1000 :=
      Field.read_write (by omega) (by decide) h3
    have r2 : Field.read 1 8 true Endianness.little s3 = some (-100000000000) := by
      rw [Field.read_congr 1 8 true Endianness.little s3 s2 f3.1
        (fun i hia hib => f3.2 i (Or.inl (by omega)))]
      exact Field.read_write (by omega) (by decide) h2
    have r1 : Field.read 0 1 true Endianness.little s3 = some 60 := by
      rw [Field.read_congr 0 1 true Endianness.little s3 s2 f3.1
        (fun i hia hib => f3.2 i (Or.inl (by omega)))]
      rw [Field.read_congr 0 1 true Endianness.little s2 s1 f2.1
        (fun i hia hib => f2.2 i (Or.inl (by omega)))]
      exact Field.read_write (by omega) (by decide) h1
    have hb3 : (11 : Nat) ≤ s3.length := by omega
    have d1 : decodeInt 1 true Endianness.little ((s3.drop 0).take 1) = 60 := by
      have hd := @Field.read_eq_decode 0 1 true Endianness.little s3 (by omega)
      rw [hd] at r1
      exact Option.some.inj r1
    have d2 : decodeInt 8 true Endianness.little ((s3.drop 1).take 8) = -100000000000 := by
      have hd := @Field.read_eq_decode 1 8 true Endianness.little s3 (by omega)
      rw [hd] at r2
      exact Option.some.inj r2
    have d3 : decodeInt 2 false Endianness.little ((s3.drop 9).take 2) = 1000 := by
      have hd := @Field.read_eq_decode 9 2 false Endianness.little s3 (by omega)
      rw [hd] at r3
      exact Option.some.inj r3
    have r1out : Field.read 0 1 true Endianness.little s3 = some 60 := by
      rw [@Field.read_eq_decode 0 1 true Endianness.little s3 (by omega), d1]
    have r2out : Field.read 1 8 true Endianness.little s3 = some (-100000000000) := by
      rw [@Field.read_eq_decode 1 8 true Endianness.little s3 (by omega), d2]
    have r3out : Field.read 9 2 false Endianness.little s3 = some 1000 := by
      rw [@Field.read_eq_decode 9 2 false Endianness.little s3 (by omega), d3]
    exact ⟨s1, s2, s3, h1, h2, h3, r1out, r2out, r3out, d1, d2, d3⟩

/-- Witness for C3 over the 11-byte zero buffer. -/
theorem write_then_read_witness :
    ∃ s1 s2 s3 : List Nat,
      Field.write 0 1 Endianness.little (List.replicate 11 0) 60 = some s1 ∧
      Field.write 1 8 Endianness.little s1 (-100000000000) = some s2 ∧
      Field.write 9 2 Endianness.little s2 1000 = some s3 ∧
      Field.read 0 1 true Endianness.little s3 = some 60 ∧
      Field.read 1 8 true Endianness.little s3 = some (-100000000000) ∧
      Field.read 9 2 false Endianness.little s3 = some 1000 ∧
      decodeInt 1 true Endianness.little ((s3.drop 0).take 1) = 60 ∧
      decodeInt 8 true Endianness.little ((s3.drop 1).take 8) = -100000000000 ∧
      decodeInt 2 false Endianness.little ((s3.drop 9).take 2) = 1000 :=
  write_then_read.2 (List.replicate 11 0) (by simp)

/-- Claim C4: writing 1000 to a 2-byte integer field at offset 0 places the
configured byte order's 2-byte encoding of 1000 in the buffer's first two
bytes: [3, 232] under big-endian, [232, 3] under little-endian. -/
theorem endianness_first_bytes :
    (∀ s : List Nat, 2 ≤ s.length →
      ∃ sb, Field.write 0 2 Endianness.big s 1000 = some sb ∧
        sb.take 2 = encodeInt 2 Endianness.big 1000 ∧ sb.take 2 = [3, 232]) ∧
    (∀ s : List Nat, 2 ≤ s.length →
      ∃ sl, Field.write 0 2 Endianness.little s 1000 = some sl ∧
        sl.take 2 = encodeInt 2 Endianness.little 1000 ∧ sl.take 2 = [232, 3]) := by
  constructor
  · intro s hs
    obtain ⟨sb, hb⟩ := Field.write_isSome 0 2 Endianness.big s 1000 (by omega)
    refine ⟨sb, hb, Field.write_zero_prefix hb, ?_⟩
    rw [Field.write_zero_prefix hb]
    decide
  · intro s hs
    obtain ⟨sl, hl⟩ := Field.write_isSome 0 2 Endianness.little s 1000 (by omega)
    refine ⟨sl, hl, Field.write_zero_prefix hl, ?_⟩
    rw [Field.write_zero_prefix hl]
    decide

/-- Witness for C4 over a 2-byte zero buffer. -/
theorem endianness_first_bytes_witness :
    (∃ sb, Field.write 0 2 Endianness.big (List.replicate 2 0) 1000 = some sb ∧
      sb.take 2 = encodeInt 2 Endianness.big 1000 ∧ sb.take 2 = [3, 232]) ∧
    (∃ sl, Field.write 0 2 Endianness.little (List.replicate 2 0) 1000 = some sl ∧
      sl.take 2 = encodeInt 2 Endianness.little 1000 ∧ sl.take 2 = [232, 3]) :=
  ⟨endianness_first_bytes.1 (List.replicate 2 0) (by simp),
    endianness_first_bytes.2 (List.replicate 2 0) (by simp)⟩

/-- Claim C5: for an open trailing field at offset `off`, `data()` (and the
slice behind `data_mut()`) has length exactly `storage.len() - off` whenever
the storage reaches `off`, and access on shorter storage is a bounds error
(`none`) instead of an out-of-range access — for reading and writing alike. -/
theorem open_field_data_len (off : Nat) (s bs : List Nat) :
    (off ≤ s.length → ∃ d, Field.openData off s = some d ∧ d.length = s.length - off) ∧
    (s.length < off → Field.openData off s = none) ∧
    (s.length < off → Field.writeOpenData off s bs = none) := by
  refine ⟨?_, ?_, ?_⟩
  · intro h
    refine ⟨s.drop off, ?_, by simp⟩
    unfold Field.openData
    rw [if_pos h]
  · intro h
    unfold Field.openData
    rw [if_neg (by omega)]
  · intro h
    unfold Field.writeOpenData
    rw [if_neg (by omega)]

/-- Witness for C5: a 20-byte storage and an open field at offset 16 yield a
4-byte slice. -/
theorem open_field_data_len_witness :
    ∃ d, Field.openData 16 (List.replicate 20 0) = some d ∧
      d.length = (List.replicate 20 (0 : Nat)).length - 16 :=
  (open_field_data_len 16 (List.replicate 20 0) []).1 (by simp)

/-- Claim C6: for the layout `{first: i8, tail: [u8]}` (offsets 0 and 1)
over a 1024-byte buffer, consuming the view with the extracting accessor and
then calling `extract` yields exactly bytes `[1..1024)` of the original
buffer — the same bytes `data()` read before the view was destroyed. The
extracted value stays valid after view teardown because the field view holds
the storage handle itself (`FieldView::new(self.storage)`), which the
embedding renders by `extract` depending only on the field view's own
storage. -/
theorem extract_after_view_consumed (s : List Nat) (h : s.length = 1024) :
    offsets [FieldType.integer 1 true, FieldType.openBytes] = [0, 1] ∧
    ∃ d, ((View.new s).into_field).extract 1 = some d ∧
      Field.openData 1 s = some d ∧ d = s.drop 1 := by
  refine ⟨rfl, s.drop 1, ?_, ?_, rfl⟩
  · have hsame : ((View.new s).into_field).extract 1 = Field.openData 1 s := rfl
    rw [hsame]
    unfold Field.openData
    rw [if_pos (by omega)]
  · unfold Field.openData
    rw [if_pos (by omega)]

/-- Witness for C6 over the 1024-byte zero buffer. -/
theorem extract_after_view_consumed_witness :
    offsets [FieldType.integer 1 true, FieldType.openBytes] = [0, 1] ∧
    ∃ d, ((View.new (List.replicate 1024 (0 : Nat))).into_field).extract 1 = some d ∧
      Field.openData 1 (List.replicate 1024 (0 : Nat)) = some d ∧
      d = (List.replicate 1024 (0 : Nat)).drop 1 :=
  extract_after_view_consumed (List.replicate 1024 0) (by rw [List.length_replicate])

/-- Claim C7: `View::new` stores the given storage without copying and
`into_storage` consumes the view and returns exactly that storage: unchanged
when nothing was written (the empty operation list), and carrying precisely
the mutations made through the view's field views otherwise. -/
theorem into_storage_round (S : Type) (s : S) (t : List Nat) (ops : List FieldOp)
    (v' : View (List Nat)) :
    (View.new s).into_storage = s ∧
    ((View.new t).runOps ops = some v' → applyOps ops t = some v'.into_storage) ∧
    (View.new t).runOps [] = some (View.new t) := by
  refine ⟨rfl, ?_, rfl⟩
  intro h
  unfold View.runOps at h
  obtain ⟨r, hr, hmap⟩ := Option.map_eq_some'.1 h
  rw [show (View.new t).storage = t from rfl] at hr
  rw [hr, ← hmap]
  rfl

/-- Witness for C7: one write of 7 into the first byte of [0, 0]. -/
theorem into_storage_round_witness :
    (View.new (3 : Nat)).into_storage = 3 ∧
    applyOps [FieldOp.wInt 0 1 Endianness.little 7] [0, 0] =
      some (View.new ([7, 0] : List Nat)).into_storage ∧
    (View.new ([0, 0] : List Nat)).runOps [] = some (View.new [0, 0]) := by
  have h := into_storage_round Nat 3 [0, 0] [FieldOp.wInt 0 1 Endianness.little 7]
    (View.new [7, 0])
  exact ⟨h.1, h.2.1 (by decide), h.2.2⟩

/-- Claim C8: layout construction is accepted exactly when no field name
repeats and no open byte field sits in a non-last position; the rejection is
decided by `mkLayout` from the field list alone, before any storage exists. -/
theorem layout_acceptance {α : Type} [DecidableEq α] (e : Endianness)
    (fs : List (α × FieldType)) :
    (mkLayout e fs).isSome = true ↔
      ((fs.map Prod.fst).Nodup ∧
        ∀ i : Nat, i + 1 < fs.length → (fs.map Prod.snd)[i]? ≠ some FieldType.openBytes) := by
  unfold mkLayout
  split
  next hc =>
    simp only [Option.isSome_some, true_iff]
    refine ⟨hc.1, ?_⟩
    intro i hi
    exact (nonLastNotOpen_iff (fs.map Prod.snd)).1 hc.2 i (by simpa using hi)
  next hc =>
    simp only [Option.isSome_none, Bool.false_eq_true, false_iff]
    intro hcon
    exact hc ⟨hcon.1, (nonLastNotOpen_iff _).2 (fun i hi => hcon.2 i (by simpa using hi))⟩

/-- Claim C9: `read`, `write`, `data` and `data_mut` fail with a bounds error
(`none`) exactly when the buffer is shorter than offset + size (offset alone
for the open field); the error reaches the caller instead of clamping or
zero-filling, and a successful read decodes exactly the field's full
`w`-byte slice. -/
theorem access_bounds (off w n : Nat) (signed : Bool) (e : Endianness) (s bs : List Nat)
    (v : Int) :
    (Field.read off w signed e s = none ↔ s.length < off + w) ∧
    (Field.write off w e s v = none ↔ s.length < off + w) ∧
    (Field.data off n s = none ↔ s.length < off + n) ∧
    (bs.length = n → (Field.writeData off n s bs = none ↔ s.length < off + n)) ∧
    (Field.openData off s = none ↔ s.length < off) ∧
    (∀ r, Field.read off w signed e s = some r →
      off + w ≤ s.length ∧ r = decodeInt w signed e ((s.drop off).take w) ∧
      ((s.drop off).take w).length = w) ∧
    (∀ d, Field.openData off s = some d → d = s.drop off ∧ d.length = s.length - off) := by
  refine ⟨?_, ?_, ?_, ?_, ?_, ?_, ?_⟩
  · unfold Field.read
    split
    next hc => simp; omega
    next hc => simp; omega
  · unfold Field.write
    split
    next hc => simp; omega
    next hc => simp; omega
  · unfold Field.data
    split
    next hc => simp; omega
    next hc => simp; omega
  · intro hbs
    unfold Field.writeData
    split
    next hc => simp; omega
    next hc => simp at hc; simp; omega
  · unfold Field.openData
    split
    next hc => simp; omega
    next hc => simp; omega
  · intro r hr
    unfold Field.read at hr
    split at hr
    next hc =>
      cases hr
      refine ⟨hc, rfl, ?_⟩
      simp
      omega
    next => cases hr
  · intro d hd
    unfold Field.openData at hd
    split at hd
    next => cases hd; exact ⟨rfl, by simp⟩
    next => cases hd

/-- Witness for C9: a 3-byte buffer with a 2-byte field at offset 0 (the
implications' hypotheses are discharged concretely). -/
theorem access_bounds_witness :
    (Field.writeData 0 2 (List.replicate 3 0) [5, 6] = none ↔
      (List.replicate 3 (0 : Nat)).length < 0 + 2) ∧
    (0 + 2 ≤ (List.replicate 3 (0 : Nat)).length ∧
      decodeInt 2 false Endianness.little (((List.replicate 3 (0 : Nat)).drop 0).take 2) =
        decodeInt 2 false Endianness.little (((List.replicate 3 (0 : Nat)).drop 0).take 2) ∧
      (((List.replicate 3 (0 : Nat)).drop 0).take 2).length = 2) ∧
    (List.replicate 3 (0 : Nat) = (List.replicate 3 (0 : Nat)).drop 0 ∧
      (List.replicate 3 (0 : Nat)).length = (List.replicate 3 (0 : Nat)).length - 0) := by
  have h := access_bounds 0 2 2 false Endianness.little (List.replicate 3 0) [5, 6] 0
  refine ⟨h.2.2.2.1 (by decide), ?_, ?_⟩
  · exact h.2.2.2.2.2.1
      (decodeInt 2 false Endianness.little (((List.replicate 3 (0 : Nat)).drop 0).take 2))
      (by decide)
  · exact h.2.2.2.2.2.2 (List.replicate 3 0) (by decide)

/-- Claim C10: a write through one field touches only that field's own byte
range: an integer `write` of width `w` (a `data_mut` copy of size `n`) at
offset `off` preserves every byte outside `[off, off + w)` (`[off, off + n)`)
and the storage length; a `data_mut` copy into the open trailing field
preserves every byte before its offset. -/
theorem write_touches_only_field (off w n : Nat) (e : Endianness) (v : Int)
    (s s' bs : List Nat) :
    (Field.write off w e s v = some s' →
      s'.length = s.length ∧ ∀ i, i < off ∨ off + w ≤ i → s'[i]? = s[i]?) ∧
    (Field.writeData off n s bs = some s' →
      s'.length = s.length ∧ ∀ i, i < off ∨ off + n ≤ i → s'[i]? = s[i]?) ∧
    (Field.writeOpenData off s bs = some s' →
      s'.length = s.length ∧ ∀ i, i < off → s'[i]? = s[i]?) :=
  ⟨Field.write_frame, Field.writeData_frame, Field.writeOpenData_frame⟩

/-- Witness for C10: writing 7 into the middle byte of [9, 9, 9] leaves the
outer bytes in place. -/
theorem write_touches_only_field_witness :
    ([9, 7, 9] : List Nat).length = ([9, 9, 9] : List Nat).length ∧
    ∀ i, i < 1 ∨ 1 + 1 ≤ i → ([9, 7, 9] : List Nat)[i]? = ([9, 9, 9] : List Nat)[i]? :=
  (write_touches_only_field 1 1 0 Endianness.little 7 [9, 9, 9] [9, 7, 9] []).1 (by decide)

end BinaryLayout
